import Mathlib

/-!
# Verification of the farhandigital blog utilities

Shallow embedding of the path-derivation, sorting, RSS-item and schema-default
logic of the repository:

* `src/utils/blog/getPostPath.ts` — `getPostPath`, `getPostSlug`
* `src/config.ts` — `SITE` (including `scheduledPostMargin`)
* content collection schema — the `tags` field default
* `src/pages/rss.xml.ts` — the RSS item construction in `GET`

Dates are modelled as integers (milliseconds since the epoch), strings as
Lean `String`s, with JavaScript's `String.prototype.split("/")` embedded as a
recursive splitter over the character list.
-/

/-- The front-matter data payload of a blog post, after schema validation
(content collection schema: author, pubDatetime, modDatetime?, title,
featured?, draft?, tags, description). Dates are milliseconds since epoch. -/
structure PostData where
  author : String
  pubDatetime : Int
  modDatetime : Option Int
  title : String
  featured : Option Bool
  draft : Option Bool
  tags : List String
  description : String
  deriving DecidableEq

/-- A content collection entry: an identifier and a data payload. -/
structure Post where
  id : String
  data : PostData
  deriving DecidableEq

/-- Core of JavaScript `"…".split("/")` on a character list: returns the first
segment together with the remaining segments. -/
def splitSepCore : List Char → List Char × List (List Char)
  | [] => ([], [])
  | c :: cs =>
    let r := splitSepCore cs
    if c = '/' then ([], r.1 :: r.2) else (c :: r.1, r.2)

/-- JavaScript `id.split("/")` (single-character separator): the list of
segments. By construction it is always non-empty, as in JavaScript. -/
def splitSep (l : List Char) : List (List Char) :=
  (splitSepCore l).1 :: (splitSepCore l).2

/-- JavaScript `s.replace(/\.md$/, "")` on a character list: strips a single
trailing ".md" when present, otherwise leaves the string unchanged. -/
def stripMdL (l : List Char) : List Char :=
  match l.reverse with
  | 'd' :: 'm' :: '.' :: rest => rest.reverse
  | _ => l

/-- `getPostSlug` from src/utils/blog/getPostPath.ts:
`post.id.split("/").pop()?.replace(/\.md$/, "") || post.id`.
The `none` branch models the optional chain producing `undefined` (falsy),
and the empty-string test models `"" || post.id`. -/
def getPostSlug (post : Post) : String :=
  match (splitSep post.id.toList).getLast? with
  | none => post.id
  | some s => if stripMdL s = [] then post.id else String.mk (stripMdL s)

/-- `getPostPath` from src/utils/blog/getPostPath.ts: computes the slug by the
same expression and prefixes the fixed route segment, `/blog/${slug}`. -/
def getPostPath (post : Post) : String :=
  let slug :=
    match (splitSep post.id.toList).getLast? with
    | none => post.id
    | some s => if stripMdL s = [] then post.id else String.mk (stripMdL s)
  "/blog/" ++ slug

/-- The last segment of an identifier after splitting on "/" (the spec's
"split on path separators, take the last segment"). -/
def lastSegment (id : String) : String :=
  String.mk (((splitSep id.toList).getLast?).getD [])

/-- String-level version of stripping a trailing ".md". -/
def stripMd (s : String) : String :=
  String.mk (stripMdL s.toList)

/-- Effective date of a post (spec §4.2): `modDatetime` if present else
`pubDatetime`. This is also the expression `modDatetime ?? pubDatetime`
used in src/pages/rss.xml.ts. -/
def effDate (p : Post) : Int :=
  p.data.modDatetime.getD p.data.pubDatetime

/-- The "later of publish date or modification date" reading of effective
date, as worded in the spec's glossary; used to compare against the code. -/
def laterOf (p : Post) : Int :=
  max p.data.pubDatetime (p.data.modDatetime.getD p.data.pubDatetime)

/-- Modelled from the spec: `src/utils/blog/getSortedPosts.ts` is not among
the sources (only its caller in rss.xml.ts is). Spec §4.2 specifies a stable
sort by effective date descending; `insertPost` places a post before the
first already-placed post with a strictly smaller effective date, keeping it
after earlier-input posts of equal date. -/
def insertPost (p : Post) : List Post → List Post
  | [] => [p]
  | q :: qs => if effDate p < effDate q then q :: insertPost p qs else p :: q :: qs

/-- Modelled from the spec: `getSortedPosts` as a stable insertion sort by
effective date descending (most recent first), per spec §4.2. -/
def getSortedPosts : List Post → List Post
  | [] => []
  | p :: ps => insertPost p (getSortedPosts ps)

/-- An item of the RSS feed as built in src/pages/rss.xml.ts (link, title,
description, pubDate). -/
structure RSSItem where
  link : String
  title : String
  description : String
  pubDate : Int
  deriving DecidableEq

/-- The items array of the feed returned by `GET` in src/pages/rss.xml.ts:
sorted posts mapped to items, with
`pubDate: new Date(post.data.modDatetime ?? post.data.pubDatetime)`. -/
def rssItems (posts : List Post) : List RSSItem :=
  (getSortedPosts posts).map fun post =>
    { link := getPostPath post,
      title := post.data.title,
      description := post.data.description,
      pubDate := post.data.modDatetime.getD post.data.pubDatetime }

/-- The `tags` field decoding of the blog content collection schema:
`z.array(z.string()).default(["others"])`. `none` models an absent field. -/
def decodeTags (tags : Option (List String)) : List String :=
  tags.getD ["others"]

/-- The fields of the site configuration relevant here (src/config.ts). -/
structure SiteConfig where
  website : String
  author : String
  title : String
  postPerIndex : Nat
  postPerPage : Nat
  scheduledPostMargin : Nat
  showArchives : Bool

/-- `SITE` from src/config.ts (the relevant fields). -/
def SITE : SiteConfig :=
  { website := "https://farhandigital.id",
    author := "Farhan",
    title := "Farhan Digital",
    postPerIndex := 4,
    postPerPage := 4,
    scheduledPostMargin := 15 * 60 * 1000,
    showArchives := true }

/-- A post with a given identifier and fixed schema-default data, used to
evaluate the path utilities (which only read the identifier). -/
def mkPost (id : String) : Post :=
  { id := id,
    data := { author := "Farhan",
              pubDatetime := 0,
              modDatetime := none,
              title := "",
              featured := none,
              draft := none,
              tags := ["others"],
              description := "" } }

/-- A post whose modification date (5) is earlier than its publication
date (10), exercising the `??` branch of the RSS-item construction. -/
def earlyModPost : Post :=
  { id := "articles/my-post.md",
    data := { author := "Farhan",
              pubDatetime := 10,
              modDatetime := some 5,
              title := "t",
              featured := none,
              draft := none,
              tags := ["others"],
              description := "d" } }

-- sanity checks on concrete inputs
example : getPostPath (mkPost "articles/my-post.md") = "/blog/my-post" := by decide
example : getPostPath (mkPost "my-post") = "/blog/my-post" := by decide
example : getPostPath (mkPost "articles/my-post.txt") = "/blog/my-post.txt" := by decide
example : getPostPath (mkPost "dir/") = "/blog/dir/" := by decide
example : getPostPath (mkPost "") = "/blog/" := by decide
example : getPostSlug (mkPost "a.md.md") = "a.md" := by decide
example : getPostSlug (mkPost "a.md") = "a" := by decide
example : splitSep "a//b".toList = ["a".toList, [], "b".toList] := by decide

/-! ## Helper lemmas about the splitter and the extension stripper -/

theorem splitSep_ne_nil (l : List Char) : splitSep l ≠ [] := by
  simp [splitSep]

theorem exists_getLast_splitSep (l : List Char) :
    ∃ x, (splitSep l).getLast? = some x :=
  ⟨(splitSep l).getLast (splitSep_ne_nil l),
    List.getLast?_eq_getLast_of_ne_nil (splitSep_ne_nil l)⟩

theorem splitSepCore_no_slash (l : List Char) :
    '/' ∉ (splitSepCore l).1 ∧ ∀ s ∈ (splitSepCore l).2, '/' ∉ s := by
  induction l with
  | nil => simp [splitSepCore]
  | cons c cs ih =>
    by_cases hc : c = '/'
    · refine ⟨by simp [splitSepCore, hc], ?_⟩
      intro s hs
      simp [splitSepCore, hc] at hs
      rcases hs with h1 | h1
      · exact h1 ▸ ih.1
      · exact ih.2 s h1
    · constructor
      · intro hmem
        simp [splitSepCore, hc] at hmem
        rcases hmem with h1 | h1
        · exact hc h1.symm
        · exact ih.1 h1
      · intro s hs
        simp [splitSepCore, hc] at hs
        exact ih.2 s hs

theorem no_slash_of_mem_splitSep {l : List Char} {s : List Char}
    (h : s ∈ splitSep l) : '/' ∉ s := by
  rcases List.mem_cons.mp h with h1 | h1
  · exact h1 ▸ (splitSepCore_no_slash l).1
  · exact (splitSepCore_no_slash l).2 s h1

theorem splitSepCore_eq_of_no_slash {l : List Char} (h : '/' ∉ l) :
    splitSepCore l = (l, []) := by
  induction l with
  | nil => rfl
  | cons c cs ih =>
    rw [List.mem_cons, not_or] at h
    have hc : ¬ c = '/' := fun hc => h.1 hc.symm
    simp [splitSepCore, hc, ih h.2]

theorem splitSep_eq_of_no_slash {l : List Char} (h : '/' ∉ l) :
    splitSep l = [l] := by
  simp [splitSep, splitSepCore_eq_of_no_slash h]

theorem stripMdL_cases (l : List Char) :
    stripMdL l = l ∨
      ∃ rest, l.reverse = 'd' :: 'm' :: '.' :: rest ∧ stripMdL l = rest.reverse := by
  unfold stripMdL
  split
  · next rest hrest => exact Or.inr ⟨rest, hrest, rfl⟩
  · exact Or.inl rfl

theorem mem_of_mem_stripMdL {l : List Char} {c : Char}
    (h : c ∈ stripMdL l) : c ∈ l := by
  rcases stripMdL_cases l with h1 | ⟨rest, hrev, h1⟩
  · exact h1 ▸ h
  · rw [h1, List.mem_reverse] at h
    have : c ∈ l.reverse := by
      rw [hrev]
      exact List.mem_cons_of_mem _ (List.mem_cons_of_mem _ (List.mem_cons_of_mem _ h))
    exact List.mem_reverse.mp this

theorem no_slash_stripMdL {l : List Char} (h : '/' ∉ l) :
    '/' ∉ stripMdL l :=
  fun hc => h (mem_of_mem_stripMdL hc)

theorem toList_mk (l : List Char) : (String.mk l).toList = l := rfl

theorem mk_eq_empty_iff (l : List Char) : String.mk l = "" ↔ l = [] := by
  constructor
  · intro h
    have : (String.mk l).toList = ("" : String).toList := by rw [h]
    exact this
  · intro h
    rw [h]

/-- General form of the slug computed by `getPostSlug` once the last segment
of the split is known. -/
theorem getPostSlug_eq (p : Post) {x : List Char}
    (hx : (splitSep p.id.toList).getLast? = some x) :
    getPostSlug p = if stripMdL x = [] then p.id else String.mk (stripMdL x) := by
  unfold getPostSlug
  rw [hx]

/-- General form of the path computed by `getPostPath` once the last segment
of the split is known. -/
theorem getPostPath_eq (p : Post) {x : List Char}
    (hx : (splitSep p.id.toList).getLast? = some x) :
    getPostPath p =
      "/blog/" ++ (if stripMdL x = [] then p.id else String.mk (stripMdL x)) := by
  unfold getPostPath
  rw [hx]

theorem lastSegment_eq (id : String) {x : List Char}
    (hx : (splitSep id.toList).getLast? = some x) :
    lastSegment id = String.mk x := by
  unfold lastSegment
  rw [hx, Option.getD_some]

theorem stripMd_mk (l : List Char) : stripMd (String.mk l) = String.mk (stripMdL l) := rfl

/-! ## Claim theorems -/

/-- C1 (amended): for every entry whose identifier contains at least one '/',
`getPostPath` returns "/blog/" followed by the identifier's last segment with
a trailing ".md" suffix (only) stripped if present; if the stripped segment is
empty, the full identifier is used instead. -/
theorem getPostPath_sep_md (p : Post) (_h : '/' ∈ p.id.toList) :
    getPostPath p =
      "/blog/" ++
        (if stripMd (lastSegment p.id) = "" then p.id
          else stripMd (lastSegment p.id)) := by
  obtain ⟨x, hx⟩ := exists_getLast_splitSep p.id.toList
  rw [getPostPath_eq p hx, lastSegment_eq p.id hx, stripMd_mk]
  by_cases hempty : stripMdL x = []
  · rw [if_pos hempty, if_pos ((mk_eq_empty_iff _).mpr hempty)]
  · rw [if_neg hempty, if_neg (fun hc => hempty ((mk_eq_empty_iff _).mp hc))]

/-- Witness for C1 at identifier "articles/my-post.md". -/
theorem getPostPath_sep_md_witness :
    '/' ∈ (mkPost "articles/my-post.md").id.toList ∧
      getPostPath (mkPost "articles/my-post.md") = "/blog/my-post" :=
  ⟨by decide, by
    rw [getPostPath_sep_md (mkPost "articles/my-post.md") (by decide)]
    decide⟩

/-- C1 counterexample: the code strips only ".md", not an arbitrary file
extension; "articles/my-post.txt" keeps its ".txt" suffix. -/
theorem getPostPath_any_extension_cex :
    getPostPath (mkPost "articles/my-post.txt") = "/blog/my-post.txt" ∧
      getPostPath (mkPost "articles/my-post.txt") ≠ "/blog/my-post" :=
  ⟨by decide, by decide⟩

/-- C4 (amended): for every identifier containing no separator, `getPostPath`
returns "/blog/" ++ the identifier with a trailing ".md" suffix (only)
stripped if present; if stripping leaves the empty string, the full
identifier is used. -/
theorem getPostPath_noSep_md (p : Post) (h : '/' ∉ p.id.toList) :
    getPostPath p =
      "/blog/" ++ (if stripMd p.id = "" then p.id else stripMd p.id) := by
  have hx : (splitSep p.id.toList).getLast? = some p.id.toList := by
    rw [splitSep_eq_of_no_slash h]
    rfl
  rw [getPostPath_eq p hx]
  have hs : stripMd p.id = String.mk (stripMdL p.id.toList) := rfl
  rw [hs]
  by_cases hempty : stripMdL p.id.toList = []
  · rw [if_pos hempty, if_pos ((mk_eq_empty_iff _).mpr hempty)]
  · rw [if_neg hempty, if_neg (fun hc => hempty ((mk_eq_empty_iff _).mp hc))]

/-- Witness for C4 at identifier "my-post". -/
theorem getPostPath_noSep_md_witness :
    '/' ∉ (mkPost "my-post").id.toList ∧
      getPostPath (mkPost "my-post") = "/blog/my-post" :=
  ⟨by decide, by
    rw [getPostPath_noSep_md (mkPost "my-post") (by decide)]
    decide⟩

/-- C4 counterexample: with no separator the code still strips only ".md";
"notes.txt" keeps its ".txt" suffix. -/
theorem getPostPath_noSep_extension_cex :
    getPostPath (mkPost "notes.txt") = "/blog/notes.txt" ∧
      getPostPath (mkPost "notes.txt") ≠ "/blog/notes" :=
  ⟨by decide, by decide⟩

/-- C5: whenever the last segment of the identifier is empty after splitting
and ".md"-stripping, `getPostPath` falls back to the full identifier. -/
theorem getPostPath_empty_fallback (p : Post)
    (h : stripMd (lastSegment p.id) = "") :
    getPostPath p = "/blog/" ++ p.id := by
  obtain ⟨x, hx⟩ := exists_getLast_splitSep p.id.toList
  rw [lastSegment_eq p.id hx, stripMd_mk] at h
  have hempty : stripMdL x = [] := (mk_eq_empty_iff _).mp h
  rw [getPostPath_eq p hx, if_pos hempty]

/-- Witness for C5 at identifier "dir/". -/
theorem getPostPath_empty_fallback_witness :
    stripMd (lastSegment (mkPost "dir/").id) = "" ∧
      getPostPath (mkPost "dir/") = "/blog/dir/" :=
  ⟨by decide, by
    rw [getPostPath_empty_fallback (mkPost "dir/") (by decide)]
    decide⟩

/-- C9: `getPostPath` is "/blog/" prefixed to `getPostSlug`; both exported
functions compute the same slug expression from the identifier. -/
theorem getPostPath_eq_blog_getPostSlug (p : Post) :
    getPostPath p = "/blog/" ++ getPostSlug p := rfl

/-- C7: `getPostPath` is total: on every identifier it returns a string that
is "/blog/" followed by some remainder, and splitting any identifier on '/'
always yields at least one segment (so the popped element always exists). -/
theorem getPostPath_total (p : Post) :
    (∃ r, getPostPath p = "/blog/" ++ r) ∧ splitSep p.id.toList ≠ [] :=
  ⟨⟨getPostSlug p, rfl⟩, splitSep_ne_nil _⟩

/-- C6 (amended): the functions are pure, hence deterministic; slug
derivation applied to an entry whose identifier is an already-derived slug
returns that slug unchanged, provided the slug is itself unchanged by
".md"-stripping (a slug still ending in ".md" is stripped again). -/
theorem getPostSlug_idem_md (p q : Post) (hq : q.id = getPostSlug p)
    (h : stripMd (getPostSlug p) = getPostSlug p) :
    getPostSlug q = getPostSlug p := by
  obtain ⟨x, hx⟩ := exists_getLast_splitSep p.id.toList
  have hslug := getPostSlug_eq p hx
  by_cases hempty : stripMdL x = []
  · rw [if_pos hempty] at hslug
    have hqid : q.id = p.id := by rw [hq, hslug]
    unfold getPostSlug
    rw [hqid]
  · rw [if_neg hempty] at hslug
    have hxmem : x ∈ splitSep p.id.toList := List.mem_of_getLast?_eq_some hx
    have hnos : '/' ∉ stripMdL x :=
      no_slash_stripMdL (no_slash_of_mem_splitSep hxmem)
    have hq2 : q.id.toList = stripMdL x := by
      rw [hq, hslug, toList_mk]
    have hlast : (splitSep q.id.toList).getLast? = some (stripMdL x) := by
      rw [hq2, splitSep_eq_of_no_slash hnos]
      rfl
    rw [getPostSlug_eq q hlast]
    have hstr : stripMdL (stripMdL x) = stripMdL x := by
      have h2 : String.mk (stripMdL (stripMdL x)) = String.mk (stripMdL x) := by
        rw [← stripMd_mk, ← hslug]
        exact h
      have h3 := congrArg String.toList h2
      rw [toList_mk, toList_mk] at h3
      exact h3
    rw [hstr, if_neg hempty, hslug]

/-- Witness for C6: the slug of "articles/my-post.md" is "my-post", and slug
derivation applied to it again returns it unchanged. -/
theorem getPostSlug_idem_md_witness :
    (mkPost "my-post").id = getPostSlug (mkPost "articles/my-post.md") ∧
      stripMd (getPostSlug (mkPost "articles/my-post.md")) =
        getPostSlug (mkPost "articles/my-post.md") ∧
      getPostSlug (mkPost "my-post") = getPostSlug (mkPost "articles/my-post.md") :=
  ⟨by decide, by decide,
    getPostSlug_idem_md (mkPost "articles/my-post.md") (mkPost "my-post")
      (by decide) (by decide)⟩

/-- C6 counterexample: slug derivation is not idempotent on "a.md.md": the
first application yields "a.md", the second strips again and yields "a". -/
theorem getPostSlug_idem_cex :
    getPostSlug (mkPost "a.md.md") = "a.md" ∧
      getPostSlug (mkPost (getPostSlug (mkPost "a.md.md"))) = "a" ∧
      getPostSlug (mkPost (getPostSlug (mkPost "a.md.md"))) ≠
        getPostSlug (mkPost "a.md.md") :=
  ⟨by decide, by decide, by decide⟩

/-! ## Sorting lemmas -/

theorem mem_insertPost {x p : Post} {l : List Post} :
    x ∈ insertPost p l ↔ x = p ∨ x ∈ l := by
  induction l with
  | nil => simp [insertPost]
  | cons q qs ih =>
    by_cases hpq : effDate p < effDate q
    · simp [insertPost, hpq, ih]
      tauto
    · simp [insertPost, hpq]

theorem pairwise_insertPost {p : Post} {l : List Post}
    (h : l.Pairwise fun a b => effDate b ≤ effDate a) :
    (insertPost p l).Pairwise fun a b => effDate b ≤ effDate a := by
  induction l with
  | nil => simp [insertPost]
  | cons q qs ih =>
    rcases List.pairwise_cons.mp h with ⟨hq, hqs⟩
    by_cases hpq : effDate p < effDate q
    · have heq : insertPost p (q :: qs) = q :: insertPost p qs := by
        simp [insertPost, hpq]
      rw [heq]
      refine List.pairwise_cons.mpr ⟨?_, ih hqs⟩
      intro b hb
      rcases mem_insertPost.mp hb with rfl | hbq
      · exact le_of_lt hpq
      · exact hq b hbq
    · have heq : insertPost p (q :: qs) = p :: q :: qs := by
        simp [insertPost, hpq]
      rw [heq]
      refine List.pairwise_cons.mpr ⟨?_, h⟩
      intro b hb
      rcases List.mem_cons.mp hb with rfl | hbq
      · exact le_of_not_lt hpq
      · exact le_trans (hq b hbq) (le_of_not_lt hpq)

theorem pairwise_getSortedPosts (posts : List Post) :
    (getSortedPosts posts).Pairwise fun a b => effDate b ≤ effDate a := by
  induction posts with
  | nil => simp [getSortedPosts]
  | cons p ps ih => exact pairwise_insertPost ih

theorem filter_insertPost (p : Post) (l : List Post) (d : Int) :
    (insertPost p l).filter (fun x => decide (effDate x = d)) =
      if effDate p = d then p :: l.filter (fun x => decide (effDate x = d))
      else l.filter (fun x => decide (effDate x = d)) := by
  induction l with
  | nil =>
    by_cases hd : effDate p = d <;> simp [insertPost, List.filter, hd]
  | cons q qs ih =>
    by_cases hpq : effDate p < effDate q
    · have heq : insertPost p (q :: qs) = q :: insertPost p qs := by
        simp [insertPost, hpq]
      rw [heq]
      by_cases hd : effDate p = d
      · have hqd : ¬ effDate q = d := by
          intro hqd
          rw [← hd] at hqd
          rw [hqd] at hpq
          exact lt_irrefl _ hpq
        simp [List.filter_cons, hqd, ih, hd]
      · simp [List.filter_cons, ih, hd]
    · have heq : insertPost p (q :: qs) = p :: q :: qs := by
        simp [insertPost, hpq]
      rw [heq]
      by_cases hd : effDate p = d <;> simp [List.filter_cons, hd]

theorem filter_getSortedPosts (posts : List Post) (d : Int) :
    (getSortedPosts posts).filter (fun x => decide (effDate x = d)) =
      posts.filter (fun x => decide (effDate x = d)) := by
  induction posts with
  | nil => rfl
  | cons p ps ih =>
    have heq : getSortedPosts (p :: ps) = insertPost p (getSortedPosts ps) := rfl
    rw [heq, filter_insertPost]
    by_cases hd : effDate p = d <;> simp [List.filter_cons, hd, ih]

/-- C3: the sorter produces a sequence non-increasing in effective date
(`modDatetime` if present else `pubDatetime`, most recent first), and it is
stable: for every effective date, the subsequence of entries carrying that
date is exactly the one of the input, in input order. -/
theorem getSortedPosts_sorted_and_stable (posts : List Post) :
    ((getSortedPosts posts).Pairwise fun a b => effDate b ≤ effDate a) ∧
      ∀ d : Int,
        (getSortedPosts posts).filter (fun x => decide (effDate x = d)) =
          posts.filter (fun x => decide (effDate x = d)) :=
  ⟨pairwise_getSortedPosts posts, fun d => filter_getSortedPosts posts d⟩

/-! ## RSS feed, schema default and configuration claims -/

/-- C2 counterexample: when `modDatetime` (5) is present but earlier than
`pubDatetime` (10), the emitted item uses `modDatetime` (5), not the later
date (10) that the claim requires. -/
theorem rss_pubDate_laterOf_cex :
    (rssItems [earlyModPost]).map (fun it => it.pubDate) = [5] ∧
      laterOf earlyModPost = 10 ∧
      (rssItems [earlyModPost]).map (fun it => it.pubDate) ≠
        [laterOf earlyModPost] :=
  ⟨by decide, by decide, by decide⟩

/-- C2 (amended): every emitted item's publication date is the entry's
`modDatetime` when present, else its `pubDatetime` (the code's
`modDatetime ?? pubDatetime`), not the later of the two. -/
theorem rss_pubDate_eq_modElsePub (posts : List Post) :
    (rssItems posts).map (fun it => it.pubDate) =
      (getSortedPosts posts).map (fun p => p.data.modDatetime.getD p.data.pubDatetime) := by
  simp [rssItems]

/-- C8 counterexample: an entry that explicitly supplies an empty tags array
keeps an empty tags list after decoding, so it is not true that every loaded
entry has a non-empty tags list. -/
theorem decodeTags_empty_cex :
    decodeTags (some []) = [] ∧ decodeTags none = ["others"] :=
  ⟨rfl, rfl⟩

/-- C8 (amended): an entry whose front-matter omits the tags field decodes to
tags = ["others"], which is non-empty; only entries that explicitly supply an
empty array end up with an empty tags list. -/
theorem decodeTags_default_nonempty :
    decodeTags none = ["others"] ∧ decodeTags none ≠ [] :=
  ⟨rfl, by simp [decodeTags]⟩

/-- C10: the configured scheduling margin equals 15 * 60 * 1000 = 900000
milliseconds (15 minutes). -/
theorem scheduledPostMargin_value :
    SITE.scheduledPostMargin = 15 * 60 * 1000 ∧
      SITE.scheduledPostMargin = 900000 :=
  ⟨rfl, rfl⟩
